import Mathlib

/-!
Shallow embedding of the build-step versioning core of vagga
(src/builder/commands/copy.rs): the deterministic path enumerator
(`get_sorted_rel_paths`), the hashing protocol (`hash_path`,
`hash_file_content`, `Depends.hash`, `Copy.hash`), the permission policy
(`Copy.calc_mode`), the filter-configuration validation
(`create_path_filter`) and the build entry points (`Depends.build`,
`Copy.build`).

Modelling choices:
* A filesystem path is a list of components (`FsPath`), ordered by the
  lexicographic order on `List String` (mirroring `PathBuf`'s
  component-wise `Ord`).  Paths under `/work` are the ones whose first
  component is `"work"`.
* The filesystem is a `stat` function from paths to a stat result
  (entry, not-found, or other I/O error), mirroring `symlink_metadata`.
  An entry carries the metadata together with the readable content
  (file bytes for regular files, the link target for symlinks).
* The `PathFilter` walk is an external iterator whose yield order is
  unspecified; it is modelled by an arbitrary list of root-relative
  paths handed to the functions that consume the walk.
* The `Digest` sink lives outside this file's sources.  Modelled from
  the spec: the digest is determined by the exact sequence of typed
  fields fed to it, `opt_field` on an absent value feeds nothing, and
  `file` streams the file bytes.  A hash computation therefore returns
  the `Trace` of fed items; equal traces mean equal fingerprints.
-/

namespace Vagga

/-- A filesystem path, as its list of components. -/
abbrev FsPath := List String

/-- File type distinguished by the code (`is_file`/`is_dir`/`is_symlink`). -/
inductive FileType where
  | regular
  | directory
  | symlink
  | other
deriving DecidableEq, Repr

/-- Symlink-aware stat data for one path (`std::fs::Metadata`). `mode` is
the raw permission-bit word returned by `permissions().mode()`. -/
structure Metadata where
  ftype : FileType
  mode : Nat
  uid : Nat
  gid : Nat
deriving DecidableEq, Repr

/-- A filesystem entry: metadata plus readable content (bytes for a
regular file, link target for a symlink; both ignored otherwise). -/
structure Entry where
  meta : Metadata
  content : List Nat
  target : String
deriving DecidableEq, Repr

/-- Result of `symlink_metadata`: success, `ErrorKind::NotFound`, or any
other I/O failure. -/
inductive StatResult where
  | ok (e : Entry)
  | notFound
  | ioError
deriving DecidableEq, Repr

/-- A filesystem state: what `symlink_metadata` answers at each path. -/
structure FSys where
  stat : FsPath → StatResult

/-- Modelled from the spec: a typed value fed to the `Digest` sink
(missing `build_step::Digest` implementation). -/
inductive FieldVal where
  | str (s : String)
  | path (p : FsPath)
  | bool (b : Bool)
  | nat (n : Nat)
deriving DecidableEq, Repr

/-- Modelled from the spec: one item fed to the `Digest` sink — a named
field, or the streamed bytes of a file (`Digest::file`). -/
inductive Item where
  | field (name : String) (v : FieldVal)
  | fileBytes (content : List Nat)
deriving DecidableEq, Repr

/-- Modelled from the spec: the digest is determined by the sequence of
items fed to it, so a hash computation returns this trace. -/
abbrev Trace := List Item

/-- Modelled from the spec: `opt_field` feeds nothing when the value is
absent and behaves like `field` otherwise. -/
def optField (name : String) : Option FieldVal → Trace
  | none => []
  | some v => [Item.field name v]

/-! ## Constants (copy.rs lines 19-39) -/

def DEFAULT_UMASK : Nat := 0o002
def DIR_MODE : Nat := 0o777
def FILE_MODE : Nat := 0o666
def EXE_FILE_MODE : Nat := 0o777
def EXE_CHECK_MASK : Nat := 0o100

def DEFAULT_IGNORE_REGEX : String :=
  "(^|/)\\.(git|hg|svn|vagga)($|/)|~$|\\.bak$|\\.orig$|^#.*#$"

def DEFAULT_IGNORE_RULES : List String :=
  ["!.git/", "!.hg/", "!.svn/", "!.vagga/", "!*.bak", "!*.orig",
   "!*~", "!#*#", "!.#*"]

/-- Bitwise complement of a `u32` word, as on `Nat` below `2^32`
(`!self.umask` in Rust). -/
def u32Not (x : Nat) : Nat := (2 ^ 32 - 1) - x % 2 ^ 32

/-! ## Path filter configuration (copy.rs lines 313-343) -/

/-- The compiled filter.  Pattern compilation itself happens in the
external `path_filter` crate; only the validated rule data is kept. -/
inductive PathFilter where
  | glob (rules : List String)
  | regex (ignore : Option String) (inc : Option String)
deriving DecidableEq, Repr

/-- `str.starts_with(c)` for a single-character pattern: the string is
nonempty and its first character is `c`. -/
def strStartsWithChar (s : String) (c : Char) : Bool :=
  match s.data with
  | [] => false
  | a :: _ => a == c

/-- The per-rule validation loop of `create_path_filter`: each glob rule
must start with `!` or `/`, otherwise the step fails to configure. -/
def checkGlobRules : List String → Except String (List String)
  | [] => Except.ok []
  | r :: rs =>
    if !strStartsWithChar r '!' && !strStartsWithChar r '/' then
      Except.error "Relative paths are allowed only for excluding rules"
    else
      match checkGlobRules rs with
      | Except.error e => Except.error e
      | Except.ok rest => Except.ok (r :: rest)

/-- `create_path_filter` (copy.rs lines 313-343): rejects mixing glob
rules with regexes, prepends the default ignore rules unless suppressed,
validates each glob rule, and otherwise selects the regex form with the
default ignore regex as fallback. -/
def create_path_filter (rules : List String) (no_default_rules : Option Bool)
    (ignore_regex : Option String) (include_regex : Option String) :
    Except String PathFilter :=
  if (!rules.isEmpty || no_default_rules.isSome) &&
      (ignore_regex.isSome || include_regex.isSome) then
    Except.error
      "You must specify either rules or regular expressions but not both"
  else if !rules.isEmpty then
    let base := if !(no_default_rules.getD false) then DEFAULT_IGNORE_RULES else []
    match checkGlobRules rules with
    | Except.error e => Except.error e
    | Except.ok rs => Except.ok (PathFilter.glob (base ++ rs))
  else
    Except.ok (PathFilter.regex
      (some (ignore_regex.getD DEFAULT_IGNORE_REGEX)) include_regex)

/-! ## Path ordering

The `BTreeSet<PathBuf>` of the enumerator iterates in the order of
`PathBuf`'s `Ord`, which compares paths component by component and
components lexicographically.  The comparison is spelled out as an
executable strict order here. -/

/-- Lexicographic strict order on character lists, by code point. -/
def charListLt : List Char → List Char → Bool
  | [], [] => false
  | [], _ :: _ => true
  | _ :: _, [] => false
  | a :: as, b :: bs =>
    if a.toNat < b.toNat then true
    else if b.toNat < a.toNat then false
    else charListLt as bs

/-- Lexicographic strict order on path components. -/
def strLt (a b : String) : Bool := charListLt a.data b.data

/-- Component-wise strict order on paths (`PathBuf`'s `Ord`). -/
def pathLt : FsPath → FsPath → Bool
  | [], [] => false
  | [], _ :: _ => true
  | _ :: _, [] => false
  | a :: as, b :: bs =>
    if strLt a b then true
    else if strLt b a then false
    else pathLt as bs

/-! ## Deterministic path enumerator (copy.rs lines 282-298) -/

/-- The nonempty suffixes of a list, longest first. -/
def tailsNonempty : FsPath → List FsPath
  | [] => []
  | c :: cs => (c :: cs) :: tailsNonempty cs

/-- Modelled from the spec: `path_util::IterSelfAndParents` (outside
these sources) yields the path itself followed by each of its ancestors,
innermost first, stopping before the empty path. -/
def selfAndParents (p : FsPath) : List FsPath :=
  (tailsNonempty p.reverse).map List.reverse

/-- Ordered insertion into the sorted list representing the `BTreeSet`
of relative paths; inserting a present element is a no-op. -/
def btreeInsert (p : FsPath) : List FsPath → List FsPath
  | [] => [p]
  | q :: qs =>
    if pathLt p q then p :: q :: qs
    else if p = q then q :: qs
    else q :: btreeInsert p qs

/-- The body of the enumerator loop: insert one relative path unless the
set already contains it (`if !all_rel_paths.contains(parent)`). -/
def insertPath (s : List FsPath) (p : FsPath) : List FsPath :=
  if p ∈ s then s else btreeInsert p s

/-- `get_sorted_rel_paths` (copy.rs lines 282-298): fold the walk's
yielded root-relative paths, inserting each one and all of its ancestors
into the sorted set.  The walk's yield order is the list order of
`entries`. -/
def get_sorted_rel_paths (entries : List FsPath) : List FsPath :=
  entries.foldl (fun s rel => (selfAndParents rel).foldl insertPath s) []

/-! ## Hashing (copy.rs lines 254-311) -/

/-- The error type of a hash computation (`build_step::VersionError`, as
used here): the fresh/no-previous-version signal `New`, an I/O error
carrying the offending path, or a filter-configuration error. -/
inductive VersionError where
  | new
  | io (p : FsPath)
  | config (msg : String)
deriving DecidableEq, Repr

/-- `hash_file_content` (copy.rs lines 300-311): stream the file bytes
for a regular file, feed the `symlink` field for a symlink, feed nothing
otherwise. -/
def hash_file_content (e : Entry) : Trace :=
  match e.meta.ftype with
  | FileType.regular => [Item.fileBytes e.content]
  | FileType.symlink => [Item.field "symlink" (FieldVal.str e.target)]
  | _ => []

/-- `hash_path` (copy.rs lines 254-280): stat the root; on a directory,
feed the root entry and then each enumerated relative path's entry in
sorted order (a stat failure inside the loop is an I/O error); on any
other entry feed it alone; `NotFound` at the root is the fresh signal,
any other stat failure an I/O error.  `hashFile` is the per-entry
closure; `walk` is the list of root-relative paths yielded by the
filter's walk. -/
def hash_path (fs : FSys) (path : FsPath) (walk : List FsPath)
    (hashFile : FsPath → Entry → Trace) : Except VersionError Trace :=
  match fs.stat path with
  | StatResult.ok e =>
    if e.meta.ftype = FileType.directory then
      (get_sorted_rel_paths walk).foldlM
        (fun acc rel =>
          match fs.stat (path ++ rel) with
          | StatResult.ok e2 => Except.ok (acc ++ hashFile (path ++ rel) e2)
          | _ => Except.error (VersionError.io (path ++ rel)))
        (hashFile path e)
    else
      Except.ok (hashFile path e)
  | StatResult.notFound => Except.error VersionError.new
  | StatResult.ioError => Except.error (VersionError.io path)

/-! ## The `Depends` step (copy.rs lines 42-106) -/

/-- Validated configuration of a `Depends` step. -/
structure Depends where
  path : FsPath
  ignore_regex : Option String
  include_regex : Option String
  rules : List String
  no_default_rules : Option Bool
deriving DecidableEq, Repr

/-- The per-entry closure of `Depends::hash` (copy.rs lines 83-95):
feed `filename`; for plain files only, feed the `is_executable` bit
derived from `mode & EXE_CHECK_MASK`; then the content. -/
def dependsEntryTrace (p : FsPath) (e : Entry) : Trace :=
  [Item.field "filename" (FieldVal.path p)] ++
  (if e.meta.ftype = FileType.regular then
    [Item.field "is_executable"
      (FieldVal.bool (decide (e.meta.mode &&& EXE_CHECK_MASK > 0)))]
  else []) ++
  hash_file_content e

/-- `Depends::hash` (copy.rs lines 77-97): build the filter, then hash
`/work` joined with the configured path using the `Depends` per-entry
fields. -/
def Depends.hash (d : Depends) (fs : FSys) (walk : List FsPath) :
    Except VersionError Trace :=
  match create_path_filter d.rules d.no_default_rules
      d.ignore_regex d.include_regex with
  | Except.error msg => Except.error (VersionError.config msg)
  | Except.ok _ => hash_path fs (["work"] ++ d.path) walk dependsEntryTrace

/-! ## The `Copy` step (copy.rs lines 108-252) -/

/-- Validated configuration of a `Copy` step. -/
structure Copy where
  source : FsPath
  path : FsPath
  owner_uid : Option Nat
  owner_gid : Option Nat
  umask : Nat
  preserve_permissions : Bool
  ignore_regex : Option String
  include_regex : Option String
  rules : List String
  no_default_rules : Option Bool
deriving DecidableEq, Repr

/-- `Copy::calc_mode` (copy.rs lines 138-157): no mode for symlinks; the
stat's mode unchanged when permissions are preserved; otherwise the
directory/executable/plain base mode with the umask's bits cleared. -/
def Copy.calc_mode (c : Copy) (stat : Metadata) : Option Nat :=
  if stat.ftype = FileType.symlink then none
  else if c.preserve_permissions then some stat.mode
  else
    let base :=
      if stat.ftype = FileType.directory then DIR_MODE
      else if stat.mode &&& EXE_CHECK_MASK > 0 then EXE_FILE_MODE
      else FILE_MODE
    some (base &&& u32Not c.umask)

/-- The per-entry closure of `Copy::hash` for a workspace-internal
source (copy.rs lines 169-177): `filename`, the optional computed
`mode`, `uid` and `gid` (override or original), then the content. -/
def copyEntryTrace (c : Copy) (p : FsPath) (e : Entry) : Trace :=
  [Item.field "filename" (FieldVal.path p)] ++
  optField "mode" ((c.calc_mode e.meta).map FieldVal.nat) ++
  [Item.field "uid" (FieldVal.nat (c.owner_uid.getD e.meta.uid)),
   Item.field "gid" (FieldVal.nat (c.owner_gid.getD e.meta.gid))] ++
  hash_file_content e

/-- `Copy::hash` (copy.rs lines 162-195): a source under `/work` is
walked and hashed per entry with the destination path fed last; any
other source feeds only the step parameters (and the owner overrides
and umask only when permissions are not preserved). -/
def Copy.hash (c : Copy) (fs : FSys) (walk : List FsPath) :
    Except VersionError Trace :=
  if ["work"].isPrefixOf c.source then
    match create_path_filter c.rules c.no_default_rules
        c.ignore_regex c.include_regex with
    | Except.error msg => Except.error (VersionError.config msg)
    | Except.ok _ =>
      match hash_path fs c.source walk (copyEntryTrace c) with
      | Except.error e => Except.error e
      | Except.ok t =>
        Except.ok (t ++ [Item.field "path" (FieldVal.path c.path)])
  else
    Except.ok
      ([Item.field "source" (FieldVal.path c.source),
        Item.field "path" (FieldVal.path c.path),
        Item.field "preserve_permissions"
          (FieldVal.bool c.preserve_permissions)] ++
       (if !c.preserve_permissions then
          optField "owner_uid" (c.owner_uid.map FieldVal.nat) ++
          optField "owner_gid" (c.owner_gid.map FieldVal.nat) ++
          [Item.field "umask" (FieldVal.nat c.umask)]
        else []))

/-! ## Build (materialization), with an explicit effect trace -/

/-- The error type of `build` (`build_step::StepError`, as used here). -/
inductive StepError where
  | read (p : FsPath)
  | copyErr (src dest : FsPath)
  | config (msg : String)
deriving DecidableEq, Repr

/-- A filesystem-affecting action performed during `build`: entering or
leaving the temporary root, a stat, a walk of the filter, or one
`shallow_copy` node replication with its owner/mode arguments. -/
inductive Effect where
  | chrootEnter (p : FsPath)
  | chrootExit
  | statOp (p : FsPath)
  | walkOp (p : FsPath)
  | copyNode (src dest : FsPath) (uid gid : Option Nat) (mode : Option Nat)
deriving DecidableEq, Repr

/-- `Depends::build` (copy.rs lines 98-102): always `Ok(())`, no
effects, whatever the flag. -/
def Depends.build (_d : Depends) (_fs : FSys) (_build : Bool) :
    Except StepError Unit × List Effect :=
  (Except.ok (), [])

/-- The inner loop of `Copy::build` (copy.rs lines 226-236): replicate
the collected parents shallowest-first, recording each as processed.
The stat failure is reported against the step's source, as in the
code. -/
def copyParents (fs : FSys) (c : Copy) (processed : List FsPath) :
    List FsPath → Except StepError (List FsPath) × List Effect
  | [] => (Except.ok processed, [])
  | parent :: rest =>
    match fs.stat (c.source ++ parent) with
    | StatResult.ok st =>
      let effs := [Effect.statOp (c.source ++ parent),
                   Effect.copyNode (c.source ++ parent) (c.path ++ parent)
                     c.owner_uid c.owner_gid (c.calc_mode st.meta)]
      let (res, effs2) := copyParents fs c (parent :: processed) rest
      (res, effs ++ effs2)
    | _ =>
      (Except.error (StepError.read c.source),
       [Effect.statOp (c.source ++ parent)])

/-- The entry loop of `Copy::build` (copy.rs lines 216-239): for each
walked entry take its not-yet-processed ancestors (innermost first),
then replicate them outermost first. -/
def copyEntries (fs : FSys) (c : Copy) (processed : List FsPath) :
    List FsPath → Except StepError (List FsPath) × List Effect
  | [] => (Except.ok processed, [])
  | rel :: rest =>
    let parents :=
      (selfAndParents rel).takeWhile (fun p => !(processed.contains p))
    match copyParents fs c processed parents.reverse with
    | (Except.error e, effs) => (Except.error e, effs)
    | (Except.ok processed2, effs) =>
      let (res, effs2) := copyEntries fs c processed2 rest
      (res, effs ++ effs2)

/-- `Copy::build` (copy.rs lines 196-248): immediate success when the
should-build flag is false; otherwise, inside the temporary root, stat
the source and replicate it (for a directory, also every filtered entry
with its ancestors).  The `shallow_copy` and `temporary_change_root`
collaborators are recorded as effects. -/
def Copy.build (c : Copy) (fs : FSys) (walk : List FsPath) (build : Bool) :
    Except StepError Unit × List Effect :=
  if !build then (Except.ok (), [])
  else
    let (res, effs) :=
      match fs.stat c.source with
      | StatResult.ok typ =>
        if typ.meta.ftype = FileType.directory then
          let effs0 := [Effect.statOp c.source,
                        Effect.copyNode c.source c.path
                          c.owner_uid c.owner_gid (c.calc_mode typ.meta)]
          match create_path_filter c.rules c.no_default_rules
              c.ignore_regex c.include_regex with
          | Except.error msg => (Except.error (StepError.config msg), effs0)
          | Except.ok _ =>
            match copyEntries fs c [] walk with
            | (Except.error e, effs1) =>
              (Except.error e, effs0 ++ [Effect.walkOp c.source] ++ effs1)
            | (Except.ok _, effs1) =>
              (Except.ok (), effs0 ++ [Effect.walkOp c.source] ++ effs1)
        else
          (Except.ok (),
           [Effect.statOp c.source,
            Effect.copyNode c.source c.path
              c.owner_uid c.owner_gid (c.calc_mode typ.meta)])
      | _ =>
        (Except.error (StepError.read c.source), [Effect.statOp c.source])
    (res, [Effect.chrootEnter ["vagga", "root"]] ++ effs ++ [Effect.chrootExit])

/-! ## The path order is a strict total order -/

theorem bool_eq_false {b : Bool} (h : ¬ b = true) : b = false := by
  cases b
  · rfl
  · exact absurd rfl h

theorem charListLt_cons_iff (x y : Char) (xs ys : List Char) :
    charListLt (x :: xs) (y :: ys) = true ↔
      x.toNat < y.toNat ∨ (x.toNat = y.toNat ∧ charListLt xs ys = true) := by
  simp only [charListLt]
  by_cases h1 : x.toNat < y.toNat
  · simp [h1]
  · by_cases h2 : y.toNat < x.toNat
    · rw [if_neg h1, if_pos h2]
      constructor
      · intro h
        exact absurd h (by simp)
      · rintro (h | ⟨h, _⟩) <;> omega
    · have hxy : x.toNat = y.toNat := by omega
      rw [if_neg h1, if_neg h2]
      constructor
      · intro h
        exact Or.inr ⟨hxy, h⟩
      · rintro (h | ⟨_, h⟩)
        · exact absurd h h1
        · exact h

theorem charListLt_irrefl : ∀ l : List Char, charListLt l l = false
  | [] => rfl
  | a :: as => by
    rw [charListLt, if_neg (Nat.lt_irrefl _), if_neg (Nat.lt_irrefl _)]
    exact charListLt_irrefl as

theorem charListLt_trans : ∀ (a b c : List Char), charListLt a b = true →
    charListLt b c = true → charListLt a c = true
  | [], [], _, h1, _ => by simp [charListLt] at h1
  | [], _ :: _, [], _, h2 => by simp [charListLt] at h2
  | [], _ :: _, _ :: _, _, _ => by simp [charListLt]
  | _ :: _, [], _, h1, _ => by simp [charListLt] at h1
  | _ :: _, _ :: _, [], _, h2 => by simp [charListLt] at h2
  | x :: xs, y :: ys, z :: zs, h1, h2 => by
    rw [charListLt_cons_iff] at h1 h2 ⊢
    rcases h1 with h1 | ⟨h1e, h1l⟩
    · rcases h2 with h2 | ⟨h2e, h2l⟩
      · exact Or.inl (Nat.lt_trans h1 h2)
      · exact Or.inl (by omega)
    · rcases h2 with h2 | ⟨h2e, h2l⟩
      · exact Or.inl (by omega)
      · exact Or.inr ⟨by omega, charListLt_trans xs ys zs h1l h2l⟩

theorem charListLt_total : ∀ (a b : List Char), charListLt a b = false →
    charListLt b a = false → a = b
  | [], [], _, _ => rfl
  | [], _ :: _, h1, _ => by simp [charListLt] at h1
  | _ :: _, [], _, h2 => by simp [charListLt] at h2
  | x :: xs, y :: ys, h1, h2 => by
    have n1 : ¬ (x.toNat < y.toNat ∨ (x.toNat = y.toNat ∧ charListLt xs ys = true)) := by
      rw [← charListLt_cons_iff]
      simp [h1]
    have n2 : ¬ (y.toNat < x.toNat ∨ (y.toNat = x.toNat ∧ charListLt ys xs = true)) := by
      rw [← charListLt_cons_iff]
      simp [h2]
    push_neg at n1 n2
    have hxy : x.toNat = y.toNat := by omega
    have hx : x = y := Char.eq_of_val_eq (UInt32.toNat.inj hxy)
    have hxs : xs = ys :=
      charListLt_total xs ys (bool_eq_false (n1.2 hxy)) (bool_eq_false (n2.2 hxy.symm))
    rw [hx, hxs]

theorem strLt_irrefl (a : String) : strLt a a = false := charListLt_irrefl a.data

theorem strLt_trans {a b c : String} (h1 : strLt a b = true)
    (h2 : strLt b c = true) : strLt a c = true :=
  charListLt_trans _ _ _ h1 h2

theorem strLt_total {a b : String} (h1 : strLt a b = false)
    (h2 : strLt b a = false) : a = b := by
  have h := charListLt_total a.data b.data h1 h2
  cases a
  cases b
  simp only [String.data] at h
  rw [h]

theorem pathLt_cons_iff (a b : String) (as bs : FsPath) :
    pathLt (a :: as) (b :: bs) = true ↔
      strLt a b = true ∨ (a = b ∧ pathLt as bs = true) := by
  simp only [pathLt]
  by_cases h1 : strLt a b = true
  · simp [h1]
  · by_cases h2 : strLt b a = true
    · have hne : a ≠ b := by
        rintro rfl
        rw [strLt_irrefl] at h2
        exact absurd h2 (by simp)
      rw [if_neg h1, if_pos h2]
      constructor
      · intro h
        exact absurd h (by simp)
      · rintro (h | ⟨h, _⟩)
        · exact absurd h h1
        · exact absurd h hne
    · have heq : a = b := strLt_total (bool_eq_false h1) (bool_eq_false h2)
      rw [if_neg h1, if_neg h2]
      constructor
      · intro h
        exact Or.inr ⟨heq, h⟩
      · rintro (h | ⟨_, h⟩)
        · exact absurd h h1
        · exact h

theorem pathLt_irrefl : ∀ p : FsPath, pathLt p p = false
  | [] => rfl
  | a :: as => by
    rw [pathLt, strLt_irrefl]
    simpa using pathLt_irrefl as

theorem pathLt_trans : ∀ {a b c : FsPath}, pathLt a b = true →
    pathLt b c = true → pathLt a c = true
  | [], [], _, h1, _ => by simp [pathLt] at h1
  | [], _ :: _, [], _, h2 => by simp [pathLt] at h2
  | [], _ :: _, _ :: _, _, _ => by simp [pathLt]
  | _ :: _, [], _, h1, _ => by simp [pathLt] at h1
  | _ :: _, _ :: _, [], _, h2 => by simp [pathLt] at h2
  | x :: xs, y :: ys, z :: zs, h1, h2 => by
    rw [pathLt_cons_iff] at h1 h2 ⊢
    rcases h1 with h1 | ⟨h1e, h1l⟩
    · rcases h2 with h2 | ⟨h2e, h2l⟩
      · exact Or.inl (strLt_trans h1 h2)
      · exact Or.inl (h2e ▸ h1)
    · rcases h2 with h2 | ⟨h2e, h2l⟩
      · exact Or.inl (h1e ▸ h2)
      · exact Or.inr ⟨h1e.trans h2e, pathLt_trans h1l h2l⟩

theorem pathLt_total : ∀ (a b : FsPath), pathLt a b = false →
    pathLt b a = false → a = b
  | [], [], _, _ => rfl
  | [], _ :: _, h1, _ => by simp [pathLt] at h1
  | _ :: _, [], _, h2 => by simp [pathLt] at h2
  | x :: xs, y :: ys, h1, h2 => by
    have n1 : ¬ (strLt x y = true ∨ (x = y ∧ pathLt xs ys = true)) := by
      rw [← pathLt_cons_iff]
      simp [h1]
    have n2 : ¬ (strLt y x = true ∨ (y = x ∧ pathLt ys xs = true)) := by
      rw [← pathLt_cons_iff]
      simp [h2]
    push_neg at n1 n2
    have hx : x = y := strLt_total (bool_eq_false n1.1) (bool_eq_false n2.1)
    have hxs : xs = ys :=
      pathLt_total xs ys (bool_eq_false (n1.2 hx)) (bool_eq_false (n2.2 hx.symm))
    rw [hx, hxs]

theorem pathLt_asymm {p q : FsPath} (h : pathLt p q = true) :
    pathLt q p = false := by
  cases hb : pathLt q p
  · rfl
  · have hc := pathLt_trans h hb
    rw [pathLt_irrefl] at hc
    exact absurd hc (by simp)

theorem pathLt_of_ne {p q : FsPath} (h1 : ¬ pathLt p q = true) (h2 : p ≠ q) :
    pathLt q p = true := by
  cases hb : pathLt q p
  · exact absurd (pathLt_total p q (bool_eq_false h1) hb) h2
  · rfl

/-! ## Lemmas about the enumerator -/

/-- Sortedness in the iteration order of the `BTreeSet`. -/
abbrev PathSorted (l : List FsPath) : Prop :=
  List.Pairwise (fun a b => pathLt a b = true) l

theorem mem_btreeInsert (x p : FsPath) (s : List FsPath) :
    x ∈ btreeInsert p s ↔ x = p ∨ x ∈ s := by
  induction s with
  | nil => simp [btreeInsert]
  | cons q qs ih =>
    by_cases h1 : pathLt p q = true
    · simp only [btreeInsert, if_pos h1, List.mem_cons]
    · by_cases h2 : p = q
      · subst h2
        have hins : btreeInsert p (p :: qs) = p :: qs := by
          simp [btreeInsert, h1]
        rw [hins]
        simp only [List.mem_cons]
        tauto
      · simp only [btreeInsert, if_neg h1, if_neg h2, List.mem_cons, ih]
        tauto

theorem btreeInsert_sorted (p : FsPath) (s : List FsPath)
    (hs : PathSorted s) : PathSorted (btreeInsert p s) := by
  induction s with
  | nil => simp [btreeInsert]
  | cons q qs ih =>
    obtain ⟨hq, hqs⟩ := List.pairwise_cons.mp hs
    by_cases h1 : pathLt p q = true
    · rw [btreeInsert, if_pos h1]
      refine List.pairwise_cons.mpr ⟨?_, List.pairwise_cons.mpr ⟨hq, hqs⟩⟩
      intro b hb
      rcases List.mem_cons.mp hb with rfl | hb
      · exact h1
      · exact pathLt_trans h1 (hq b hb)
    · by_cases h2 : p = q
      · rw [btreeInsert, if_neg h1, if_pos h2]
        exact List.pairwise_cons.mpr ⟨hq, hqs⟩
      · rw [btreeInsert, if_neg h1, if_neg h2]
        refine List.pairwise_cons.mpr ⟨?_, ih hqs⟩
        intro b hb
        rcases (mem_btreeInsert b p qs).mp hb with rfl | hb
        · exact pathLt_of_ne h1 h2
        · exact hq b hb

theorem mem_insertPath (x : FsPath) (s : List FsPath) (p : FsPath) :
    x ∈ insertPath s p ↔ x = p ∨ x ∈ s := by
  unfold insertPath
  split
  · next h =>
    constructor
    · tauto
    · rintro (rfl | hx)
      · exact h
      · exact hx
  · exact mem_btreeInsert x p s

theorem insertPath_sorted (s : List FsPath) (p : FsPath)
    (hs : PathSorted s) : PathSorted (insertPath s p) := by
  unfold insertPath
  split
  · exact hs
  · exact btreeInsert_sorted p s hs

theorem mem_foldl_insertPath (x : FsPath) (ps : List FsPath)
    (s : List FsPath) :
    x ∈ ps.foldl insertPath s ↔ x ∈ s ∨ x ∈ ps := by
  induction ps generalizing s with
  | nil => simp
  | cons a ps ih =>
    rw [List.foldl_cons, ih, mem_insertPath]
    simp only [List.mem_cons]
    tauto

theorem foldl_insertPath_sorted (ps : List FsPath) (s : List FsPath)
    (hs : PathSorted s) : PathSorted (ps.foldl insertPath s) := by
  induction ps generalizing s with
  | nil => exact hs
  | cons a ps ih => exact ih _ (insertPath_sorted s a hs)

theorem mem_foldl_entries (x : FsPath) (entries : List FsPath)
    (s : List FsPath) :
    x ∈ entries.foldl (fun s rel => (selfAndParents rel).foldl insertPath s) s
      ↔ x ∈ s ∨ ∃ e ∈ entries, x ∈ selfAndParents e := by
  induction entries generalizing s with
  | nil => simp
  | cons a es ih =>
    rw [List.foldl_cons, ih, mem_foldl_insertPath]
    simp only [List.mem_cons]
    constructor
    · rintro ((hs | ha) | ⟨e, he, hx⟩)
      · exact Or.inl hs
      · exact Or.inr ⟨a, Or.inl rfl, ha⟩
      · exact Or.inr ⟨e, Or.inr he, hx⟩
    · rintro (hs | ⟨e, (rfl | he), hx⟩)
      · exact Or.inl (Or.inl hs)
      · exact Or.inl (Or.inr hx)
      · exact Or.inr ⟨e, he, hx⟩

theorem mem_get_sorted_rel_paths (x : FsPath) (entries : List FsPath) :
    x ∈ get_sorted_rel_paths entries
      ↔ ∃ e ∈ entries, x ∈ selfAndParents e := by
  unfold get_sorted_rel_paths
  rw [mem_foldl_entries]
  simp

theorem foldl_entries_sorted (entries : List FsPath) (s : List FsPath)
    (hs : PathSorted s) :
    PathSorted
      (entries.foldl (fun s rel => (selfAndParents rel).foldl insertPath s) s) := by
  induction entries generalizing s with
  | nil => exact hs
  | cons a es ih =>
    rw [List.foldl_cons]
    exact ih _ (foldl_insertPath_sorted _ _ hs)

theorem get_sorted_rel_paths_sorted (entries : List FsPath) :
    PathSorted (get_sorted_rel_paths entries) :=
  foldl_entries_sorted entries [] (by simp)

theorem pathSorted_nodup {l : List FsPath} (h : PathSorted l) : l.Nodup :=
  h.imp (fun hab => by
    rintro rfl
    rw [pathLt_irrefl] at hab
    exact absurd hab (by simp))

theorem pathSorted_ext : ∀ (l₁ l₂ : List FsPath), PathSorted l₁ →
    PathSorted l₂ → (∀ x, x ∈ l₁ ↔ x ∈ l₂) → l₁ = l₂
  | [], [], _, _, _ => rfl
  | [], b :: bs, _, _, hext => by
    have := (hext b).mpr (List.mem_cons_self b bs)
    simp at this
  | a :: as, [], _, _, hext => by
    have := (hext a).mp (List.mem_cons_self a as)
    simp at this
  | a :: as, b :: bs, hp₁, hp₂, hext => by
    have h₁ := List.pairwise_cons.mp hp₁
    have h₂ := List.pairwise_cons.mp hp₂
    have hab : a = b := by
      by_contra hne
      have ha : a ∈ b :: bs := (hext a).mp (List.mem_cons_self a as)
      have hb : b ∈ a :: as := (hext b).mpr (List.mem_cons_self b bs)
      rcases List.mem_cons.mp ha with h | h
      · exact hne h
      · rcases List.mem_cons.mp hb with h' | h'
        · exact hne h'.symm
        · have hba := h₂.1 a h
          have hab' := h₁.1 b h'
          rw [pathLt_asymm hab'] at hba
          exact absurd hba (by simp)
    subst hab
    have htail : ∀ x, x ∈ as ↔ x ∈ bs := by
      intro x
      constructor
      · intro hx
        have hne : x ≠ a := by
          rintro rfl
          have := h₁.1 x hx
          rw [pathLt_irrefl] at this
          exact absurd this (by simp)
        have := (hext x).mp (List.mem_cons.mpr (Or.inr hx))
        rcases List.mem_cons.mp this with h | h
        · exact absurd h hne
        · exact h
      · intro hx
        have hne : x ≠ a := by
          rintro rfl
          have := h₂.1 x hx
          rw [pathLt_irrefl] at this
          exact absurd this (by simp)
        have := (hext x).mpr (List.mem_cons.mpr (Or.inr hx))
        rcases List.mem_cons.mp this with h | h
        · exact absurd h hne
        · exact h
    rw [pathSorted_ext as bs h₁.2 h₂.2 htail]

theorem get_sorted_rel_paths_perm (w₁ w₂ : List FsPath) (h : w₁.Perm w₂) :
    get_sorted_rel_paths w₁ = get_sorted_rel_paths w₂ := by
  apply pathSorted_ext _ _ (get_sorted_rel_paths_sorted w₁)
    (get_sorted_rel_paths_sorted w₂)
  intro x
  rw [mem_get_sorted_rel_paths, mem_get_sorted_rel_paths]
  constructor
  · rintro ⟨e, he, hx⟩
    exact ⟨e, h.mem_iff.mp he, hx⟩
  · rintro ⟨e, he, hx⟩
    exact ⟨e, h.mem_iff.mpr he, hx⟩

theorem mem_tailsNonempty (t : FsPath) : ∀ (r : FsPath),
    t ∈ tailsNonempty r ↔ t ≠ [] ∧ t <:+ r
  | [] => by
    constructor
    · intro h
      exact absurd h (by simp [tailsNonempty])
    · rintro ⟨hne, hsuf⟩
      rw [List.suffix_nil] at hsuf
      exact absurd hsuf hne
  | c :: cs => by
    rw [tailsNonempty, List.mem_cons, mem_tailsNonempty t cs,
      List.suffix_cons_iff]
    constructor
    · rintro (rfl | ⟨hne, hsuf⟩)
      · exact ⟨by simp, Or.inl rfl⟩
      · exact ⟨hne, Or.inr hsuf⟩
    · rintro ⟨hne, rfl | hsuf⟩
      · exact Or.inl rfl
      · exact Or.inr ⟨hne, hsuf⟩

theorem mem_selfAndParents (q : FsPath) (p : FsPath) :
    q ∈ selfAndParents p ↔ q ≠ [] ∧ q <+: p := by
  unfold selfAndParents
  rw [List.mem_map]
  constructor
  · rintro ⟨t, ht, rfl⟩
    rw [mem_tailsNonempty] at ht
    refine ⟨by simpa using ht.1, ?_⟩
    have h2 : t.reverse <+: p.reverse.reverse := List.reverse_prefix.mpr ht.2
    rwa [List.reverse_reverse] at h2
  · rintro ⟨hne, hpre⟩
    refine ⟨q.reverse, ?_, by simp⟩
    rw [mem_tailsNonempty]
    exact ⟨by simpa using hne, List.reverse_suffix.mpr hpre⟩
/-! ## Shared helper lemmas about the hash functions -/

theorem hash_path_walk_perm (fs : FSys) (path : FsPath)
    (w₁ w₂ : List FsPath) (hashFile : FsPath → Entry → Trace)
    (h : w₁.Perm w₂) :
    hash_path fs path w₁ hashFile = hash_path fs path w₂ hashFile := by
  unfold hash_path
  rw [get_sorted_rel_paths_perm w₁ w₂ h]

theorem create_path_filter_mixed_error (rules : List String)
    (ndr : Option Bool) (ir inc : Option String)
    (h1 : (!rules.isEmpty || ndr.isSome) = true)
    (h2 : (ir.isSome || inc.isSome) = true) :
    create_path_filter rules ndr ir inc = Except.error
      "You must specify either rules or regular expressions but not both" := by
  unfold create_path_filter
  rw [if_pos (by rw [h1, h2]; rfl)]

theorem checkGlobRules_error (rules : List String)
    (h : ∃ r ∈ rules,
      (!strStartsWithChar r '!' && !strStartsWithChar r '/') = true) :
    ∃ msg, checkGlobRules rules = Except.error msg := by
  induction rules with
  | nil => simp at h
  | cons r rs ih =>
    rw [checkGlobRules]
    by_cases hr : (!strStartsWithChar r '!' && !strStartsWithChar r '/') = true
    · rw [if_pos hr]
      exact ⟨_, rfl⟩
    · rw [if_neg hr]
      obtain ⟨r', hr', hbad⟩ := h
      rcases List.mem_cons.mp hr' with rfl | hr'
      · exact absurd hbad hr
      · obtain ⟨msg, hmsg⟩ := ih ⟨r', hr', hbad⟩
        rw [hmsg]
        exact ⟨msg, rfl⟩

/-! ## Claim theorems -/

/-- C1: for a fixed directory tree and fixed step configuration the
fingerprint is a function of the sorted relative-path set only:
`Depends.hash`, and `Copy.hash` for a workspace-internal source, yield
identical traces (hence identical fingerprints) for any two walk yield
orders that are permutations of each other; two runs on identical
inputs are the identity-permutation special case. -/
theorem hash_independent_of_walk_order (d : Depends) (c : Copy) (fs : FSys)
    (w₁ w₂ : List FsPath) (hperm : w₁.Perm w₂)
    (_hwork : ["work"].isPrefixOf c.source = true) :
    Depends.hash d fs w₁ = Depends.hash d fs w₂ ∧
    Copy.hash c fs w₁ = Copy.hash c fs w₂ := by
  constructor
  · unfold Depends.hash
    cases hf : create_path_filter d.rules d.no_default_rules
        d.ignore_regex d.include_regex with
    | error msg => rfl
    | ok f => exact hash_path_walk_perm fs _ w₁ w₂ dependsEntryTrace hperm
  · unfold Copy.hash
    rw [hash_path_walk_perm fs c.source w₁ w₂ (copyEntryTrace c) hperm]

/-- C1 witness: a concrete shuffled walk over a concrete filesystem. -/
theorem hash_independent_of_walk_order_witness :
    Depends.hash ⟨["src"], none, none, [], none⟩
        ⟨fun _ => StatResult.notFound⟩ [["a"], ["b"]] =
      Depends.hash ⟨["src"], none, none, [], none⟩
        ⟨fun _ => StatResult.notFound⟩ [["b"], ["a"]] ∧
    Copy.hash ⟨["work", "src"], ["dst"], none, none, 0o002, false,
        none, none, [], none⟩ ⟨fun _ => StatResult.notFound⟩ [["a"], ["b"]] =
      Copy.hash ⟨["work", "src"], ["dst"], none, none, 0o002, false,
        none, none, [], none⟩ ⟨fun _ => StatResult.notFound⟩ [["b"], ["a"]] :=
  hash_independent_of_walk_order _ _ _ _ _ (by decide) (by decide)

/-- C9: `Depends.build` succeeds with no filesystem effect for every
input and flag, and `Copy.build` with the should-build flag false
returns success immediately with no effect. -/
theorem build_is_noop (d : Depends) (c : Copy) (fs fs' : FSys)
    (walk : List FsPath) (b : Bool) :
    Depends.build d fs b = (Except.ok (), []) ∧
    Copy.build c fs' walk false = (Except.ok (), []) :=
  ⟨rfl, rfl⟩

/-- C10: with empty glob rules, the mere presence of `no_default_rules`
(whether true or false) together with a present ignore or include regex
triggers the mixed-specification configuration error. -/
theorem filter_conflict_on_no_default_rules_presence (b : Bool)
    (ir inc : Option String) (h : ir.isSome ∨ inc.isSome) :
    create_path_filter [] (some b) ir inc = Except.error
      "You must specify either rules or regular expressions but not both" :=
  create_path_filter_mixed_error [] (some b) ir inc (by simp)
    (by rcases h with h | h <;> simp [h])

/-- C10 witness: both values of `no_default_rules`, each regex slot. -/
theorem filter_conflict_on_no_default_rules_presence_witness :
    create_path_filter [] (some true) (some "x") none = Except.error
      "You must specify either rules or regular expressions but not both" ∧
    create_path_filter [] (some false) none (some "y") = Except.error
      "You must specify either rules or regular expressions but not both" :=
  ⟨filter_conflict_on_no_default_rules_presence true (some "x") none
      (Or.inl rfl),
   filter_conflict_on_no_default_rules_presence false none (some "y")
      (Or.inr rfl)⟩

/-- C5: combining non-empty glob rules with a present ignore or include
regex is a configuration error, and a glob rule starting with neither
`!` nor `/` is a configuration error; both checks run before any
filesystem access (the validator takes no filesystem argument). -/
theorem filter_compile_rejections (rules : List String)
    (ndr : Option Bool) (ir inc : Option String) :
    (rules ≠ [] → (ir.isSome ∨ inc.isSome) →
      ∃ msg, create_path_filter rules ndr ir inc = Except.error msg) ∧
    ((∃ r ∈ rules, ¬ strStartsWithChar r '!' = true ∧
        ¬ strStartsWithChar r '/' = true) →
      ∃ msg, create_path_filter rules ndr ir inc = Except.error msg) := by
  constructor
  · intro hne hreg
    refine ⟨_, create_path_filter_mixed_error rules ndr ir inc ?_ ?_⟩
    · cases rules with
      | nil => exact absurd rfl hne
      | cons a rs => rfl
    · rcases hreg with h | h <;> simp [h]
  · intro hbad
    obtain ⟨r, hr, hb1, hb2⟩ := hbad
    have hbadb : (!strStartsWithChar r '!' && !strStartsWithChar r '/') = true := by
      rw [bool_eq_false hb1, bool_eq_false hb2]
      rfl
    have hne : rules.isEmpty = false := by
      cases rules with
      | nil => exact absurd hr (by simp)
      | cons a rs => rfl
    by_cases hreg : (ir.isSome || inc.isSome) = true
    · exact ⟨_, create_path_filter_mixed_error rules ndr ir inc
        (by rw [hne]; rfl) hreg⟩
    · obtain ⟨msg, hmsg⟩ := checkGlobRules_error rules ⟨r, hr, hbadb⟩
      refine ⟨msg, ?_⟩
      unfold create_path_filter
      rw [if_neg (by rw [hne, bool_eq_false hreg]; simp), if_pos (by rw [hne]; rfl),
        hmsg]

/-- C5 witness: a mixed specification and a relative non-exclusion rule,
each rejected. -/
theorem filter_compile_rejections_witness :
    (∃ msg, create_path_filter ["/x"] none (some "a") none
      = Except.error msg) ∧
    (∃ msg, create_path_filter ["foo/bar"] none none none
      = Except.error msg) :=
  ⟨(filter_compile_rejections ["/x"] none (some "a") none).1
      (by decide) (Or.inl rfl),
   (filter_compile_rejections ["foo/bar"] none none none).2
      ⟨"foo/bar", by decide, by decide, by decide⟩⟩

/-- C6: a stat failure at the hashed root with not-found yields the
distinct fresh signal `VersionError.new`, while any other stat failure
yields the I/O error carrying the offending path — for `hash_path` and
hence for `Depends.hash` whenever the filter configuration compiles. -/
theorem hash_missing_path_fresh_signal (fs : FSys) (path : FsPath)
    (walk : List FsPath) (hashFile : FsPath → Entry → Trace) (d : Depends)
    (hfilter : ∃ f, create_path_filter d.rules d.no_default_rules
        d.ignore_regex d.include_regex = Except.ok f) :
    (fs.stat path = StatResult.notFound →
      hash_path fs path walk hashFile = Except.error VersionError.new) ∧
    (fs.stat path = StatResult.ioError →
      hash_path fs path walk hashFile = Except.error (VersionError.io path)) ∧
    (fs.stat (["work"] ++ d.path) = StatResult.notFound →
      Depends.hash d fs walk = Except.error VersionError.new) ∧
    (fs.stat (["work"] ++ d.path) = StatResult.ioError →
      Depends.hash d fs walk = Except.error
        (VersionError.io (["work"] ++ d.path))) := by
  obtain ⟨f, hf⟩ := hfilter
  refine ⟨?_, ?_, ?_, ?_⟩
  · intro h
    unfold hash_path
    rw [h]
  · intro h
    unfold hash_path
    rw [h]
  · intro h
    unfold Depends.hash
    rw [hf]
    unfold hash_path
    rw [h]
  · intro h
    unfold Depends.hash
    rw [hf]
    unfold hash_path
    rw [h]

/-- C6 witness: a `Depends` step over an empty filesystem is fresh, and
over a filesystem whose stat fails otherwise it is an I/O error. -/
theorem hash_missing_path_fresh_signal_witness :
    Depends.hash ⟨["src"], none, none, [], none⟩
        ⟨fun _ => StatResult.notFound⟩ [] = Except.error VersionError.new ∧
    Depends.hash ⟨["src"], none, none, [], none⟩
        ⟨fun _ => StatResult.ioError⟩ [] = Except.error
          (VersionError.io (["work"] ++ ["src"])) :=
  ⟨(hash_missing_path_fresh_signal ⟨fun _ => StatResult.notFound⟩
      ["x"] [] dependsEntryTrace ⟨["src"], none, none, [], none⟩
      ⟨_, rfl⟩).2.2.1 rfl,
   (hash_missing_path_fresh_signal ⟨fun _ => StatResult.ioError⟩
      ["x"] [] dependsEntryTrace ⟨["src"], none, none, [], none⟩
      ⟨_, rfl⟩).2.2.2 rfl⟩

/-- The `Copy` configuration used in the mode-policy examples:
permissions not preserved, umask `0o022`, no owner overrides. -/
def umask022Step : Copy :=
  ⟨["work", "src"], ["dst"], none, none, 0o022, false, none, none, [], none⟩

/-- A regular file whose only execute bit is the group one. -/
def groupExecMeta : Metadata := ⟨FileType.regular, 0o010, 0, 0⟩

/-- C2 counterexample: the claim says a regular file with ANY execute
bit set gets the 0o777 base under `preserve_permissions = false`, so
under umask 0o022 it would map to 0o755; but `calc_mode` tests only the
owner bit `0o100` (`EXE_CHECK_MASK`), so a file with mode 0o010 (group
execute only) yields 0o644, not 0o755. -/
theorem calc_mode_any_exec_counterexample :
    groupExecMeta.ftype = FileType.regular ∧
    groupExecMeta.mode &&& 0o111 ≠ 0 ∧
    umask022Step.preserve_permissions = false ∧
    umask022Step.umask = 0o022 ∧
    Copy.calc_mode umask022Step groupExecMeta ≠ some 0o755 ∧
    Copy.calc_mode umask022Step groupExecMeta = some 0o644 := by
  decide

/-- C2 (amended): `calc_mode` returns none for a symlink; the existing
mode unchanged when permissions are preserved; otherwise the umask bits
cleared from 0o777 for a directory, from 0o777 for a file whose OWNER
execute bit (0o100) is set, and from 0o666 for any other file — so
under umask 0o022 a regular file without the owner-execute bit yields
0o644 and one with it yields 0o755. -/
theorem calc_mode_policy (c : Copy) (st : Metadata) :
    (st.ftype = FileType.symlink → Copy.calc_mode c st = none) ∧
    (st.ftype ≠ FileType.symlink → c.preserve_permissions = true →
      Copy.calc_mode c st = some st.mode) ∧
    (st.ftype = FileType.directory → c.preserve_permissions = false →
      Copy.calc_mode c st = some (DIR_MODE &&& u32Not c.umask)) ∧
    (st.ftype ≠ FileType.symlink → st.ftype ≠ FileType.directory →
      c.preserve_permissions = false → st.mode &&& EXE_CHECK_MASK ≠ 0 →
      Copy.calc_mode c st = some (EXE_FILE_MODE &&& u32Not c.umask)) ∧
    (st.ftype ≠ FileType.symlink → st.ftype ≠ FileType.directory →
      c.preserve_permissions = false → st.mode &&& EXE_CHECK_MASK = 0 →
      Copy.calc_mode c st = some (FILE_MODE &&& u32Not c.umask)) ∧
    (c.umask = 0o022 → c.preserve_permissions = false →
      st.ftype = FileType.regular → st.mode &&& EXE_CHECK_MASK = 0 →
      Copy.calc_mode c st = some 0o644) ∧
    (c.umask = 0o022 → c.preserve_permissions = false →
      st.ftype = FileType.regular → st.mode &&& EXE_CHECK_MASK ≠ 0 →
      Copy.calc_mode c st = some 0o755) := by
  refine ⟨?_, ?_, ?_, ?_, ?_, ?_, ?_⟩
  · intro h
    simp [Copy.calc_mode, h]
  · intro h1 h2
    simp [Copy.calc_mode, h1, h2]
  · intro h1 h2
    simp [Copy.calc_mode, h1, h2]
  · intro h1 h2 h3 h4
    simp [Copy.calc_mode, h1, h2, h3, Nat.pos_of_ne_zero h4]
  · intro h1 h2 h3 h4
    simp [Copy.calc_mode, h1, h2, h3, h4]
  · intro h1 h2 h3 h4
    have hgen : Copy.calc_mode c st = some (FILE_MODE &&& u32Not c.umask) := by
      simp [Copy.calc_mode, h2, h3, h4]
    rw [hgen, h1]
    decide
  · intro h1 h2 h3 h4
    have hgen : Copy.calc_mode c st =
        some (EXE_FILE_MODE &&& u32Not c.umask) := by
      simp [Copy.calc_mode, h2, h3, Nat.pos_of_ne_zero h4]
    rw [hgen, h1]
    decide

/-- C2 witness: the two concrete umask-0o022 instances. -/
theorem calc_mode_policy_witness :
    Copy.calc_mode umask022Step ⟨FileType.regular, 0o644, 0, 0⟩ = some 0o644 ∧
    Copy.calc_mode umask022Step ⟨FileType.regular, 0o744, 0, 0⟩ = some 0o755 :=
  ⟨(calc_mode_policy umask022Step _).2.2.2.2.2.1 rfl rfl rfl (by decide),
   (calc_mode_policy umask022Step _).2.2.2.2.2.2 rfl rfl rfl (by decide)⟩

/-- C7: the enumerated relative-path set is ancestor-closed (every
nonempty prefix of a member, up to and excluding the root, is a
member), strictly sorted in the path order, and duplicate-free. -/
theorem enumerated_set_invariants (walk : List FsPath) :
    (∀ p ∈ get_sorted_rel_paths walk, ∀ q : FsPath, q ≠ [] → q <+: p →
      q ∈ get_sorted_rel_paths walk) ∧
    PathSorted (get_sorted_rel_paths walk) ∧
    (get_sorted_rel_paths walk).Nodup := by
  refine ⟨?_, get_sorted_rel_paths_sorted walk,
    pathSorted_nodup (get_sorted_rel_paths_sorted walk)⟩
  intro p hp q hqne hqp
  rw [mem_get_sorted_rel_paths] at hp ⊢
  obtain ⟨e, he, hpe⟩ := hp
  rw [mem_selfAndParents] at hpe
  exact ⟨e, he, (mem_selfAndParents q e).mpr ⟨hqne, hqp.trans hpe.2⟩⟩

/-- C7 witness: both ancestors of a deep matched path are enumerated. -/
theorem enumerated_set_invariants_witness :
    ["src"] ∈ get_sorted_rel_paths [["src", "deep", "file.txt"]] :=
  (enumerated_set_invariants [["src", "deep", "file.txt"]]).1
    ["src", "deep", "file.txt"] (by decide) ["src"] (by decide)
    ⟨["deep", "file.txt"], rfl⟩

/-- C3: a `Copy` step whose source is not under `/work` hashes only the
step parameters: the trace is exactly source, destination path and
preserve_permissions, plus — only when permissions are not preserved —
the optional owner overrides and the umask; the trace is identical for
every filesystem and every walk (so changing file content under the
source never changes the fingerprint), and contains no streamed file
bytes. -/
theorem copy_hash_external_params_only (c : Copy) (fs fs' : FSys)
    (w w' : List FsPath)
    (hext : ¬ ["work"].isPrefixOf c.source = true) :
    Copy.hash c fs w = Except.ok
      ([Item.field "source" (FieldVal.path c.source),
        Item.field "path" (FieldVal.path c.path),
        Item.field "preserve_permissions"
          (FieldVal.bool c.preserve_permissions)] ++
       (if !c.preserve_permissions then
          optField "owner_uid" (c.owner_uid.map FieldVal.nat) ++
          optField "owner_gid" (c.owner_gid.map FieldVal.nat) ++
          [Item.field "umask" (FieldVal.nat c.umask)]
        else [])) ∧
    Copy.hash c fs w = Copy.hash c fs' w' ∧
    (∀ t bs, Copy.hash c fs w = Except.ok t → Item.fileBytes bs ∉ t) := by
  have key : ∀ (g : FSys) (v : List FsPath), Copy.hash c g v = Except.ok
      ([Item.field "source" (FieldVal.path c.source),
        Item.field "path" (FieldVal.path c.path),
        Item.field "preserve_permissions"
          (FieldVal.bool c.preserve_permissions)] ++
       (if !c.preserve_permissions then
          optField "owner_uid" (c.owner_uid.map FieldVal.nat) ++
          optField "owner_gid" (c.owner_gid.map FieldVal.nat) ++
          [Item.field "umask" (FieldVal.nat c.umask)]
        else [])) := by
    intro g v
    unfold Copy.hash
    rw [if_neg hext]
  refine ⟨key fs w, (key fs w).trans (key fs' w').symm, ?_⟩
  intro t bs ht
  rw [key fs w] at ht
  injection ht with ht
  subst ht
  cases hu : c.owner_uid <;> cases hg : c.owner_gid <;>
    cases hp : c.preserve_permissions <;> simp [optField, hu, hg, hp]

/-- Two filesystems holding the same external file with different
content, and an external-source `Copy` step. -/
def etcFsA : FSys := ⟨fun p => if p = ["etc", "config"] then
    StatResult.ok ⟨⟨FileType.regular, 0o644, 0, 0⟩, [1, 2, 3], ""⟩
  else StatResult.notFound⟩

def etcFsB : FSys := ⟨fun p => if p = ["etc", "config"] then
    StatResult.ok ⟨⟨FileType.regular, 0o644, 0, 0⟩, [9, 9, 9], ""⟩
  else StatResult.notFound⟩

def etcCopyStep : Copy :=
  ⟨["etc", "config"], ["dst"], some 1, none, 0o022, false, none, none,
   [], none⟩

/-- C3 witness: the fingerprint ignores the changed content. -/
theorem copy_hash_external_params_only_witness :
    Copy.hash etcCopyStep etcFsA [] = Copy.hash etcCopyStep etcFsB [["x"]] :=
  (copy_hash_external_params_only etcCopyStep etcFsA etcFsB [] [["x"]]
    (by decide)).2.1

instance {ε α : Type} [DecidableEq ε] [DecidableEq α] :
    DecidableEq (Except ε α) := fun x y =>
  match x, y with
  | Except.error a, Except.error b =>
    if h : a = b then isTrue (h ▸ rfl)
    else isFalse (fun hc => h (Except.error.inj hc))
  | Except.error _, Except.ok _ => isFalse (fun hc => Except.noConfusion hc)
  | Except.ok _, Except.error _ => isFalse (fun hc => Except.noConfusion hc)
  | Except.ok a, Except.ok b =>
    if h : a = b then isTrue (h ▸ rfl)
    else isFalse (fun hc => h (Except.ok.inj hc))

/-- A bit masked with the single-bit `EXE_CHECK_MASK` is all or nothing. -/
theorem and_exe_mask_cases (m : Nat) :
    m &&& EXE_CHECK_MASK = 0 ∨ m &&& EXE_CHECK_MASK = EXE_CHECK_MASK := by
  have h : EXE_CHECK_MASK = 2 ^ 6 := by norm_num [EXE_CHECK_MASK]
  cases hb : m.testBit 6
  · exact Or.inl (by rw [h, Nat.and_two_pow, hb]; rfl)
  · exact Or.inr (by rw [h, Nat.and_two_pow, hb]; rfl)

/-- Regular files with modes 0o644 and 0o654 and equal content: their
execute bits (mask 0o111) differ, in the group position. -/
def fileModeA : Entry := ⟨⟨FileType.regular, 0o644, 0, 0⟩, [104, 105], ""⟩
def fileModeB : Entry := ⟨⟨FileType.regular, 0o654, 0, 0⟩, [104, 105], ""⟩

def depFsA : FSys := ⟨fun p => if p = ["work", "f"] then
  StatResult.ok fileModeA else StatResult.notFound⟩
def depFsB : FSys := ⟨fun p => if p = ["work", "f"] then
  StatResult.ok fileModeB else StatResult.notFound⟩

def depStepF : Depends := ⟨["f"], none, none, [], none⟩

/-- C4 counterexample: two regular files with identical content and name
whose execute bits differ (0o644 vs 0o654, group-execute) nevertheless
feed identical per-entry field sequences and identical whole `Depends`
fingerprints, because only the owner bit 0o100 is consulted — refuting
"if their executable bits differ the fingerprints differ". -/
theorem depends_exec_bits_counterexample :
    fileModeA.content = fileModeB.content ∧
    fileModeA.meta.mode &&& 0o111 ≠ fileModeB.meta.mode &&& 0o111 ∧
    dependsEntryTrace ["work", "f"] fileModeA
      = dependsEntryTrace ["work", "f"] fileModeB ∧
    Depends.hash depStepF depFsA [] = Depends.hash depStepF depFsB [] := by
  decide

/-- C4 (amended): under `Depends` hashing, for two regular files with
identical content and name, only the OWNER execute bit (0o100) matters:
modes agreeing on that bit feed identical field sequences (whatever the
other bits), and modes differing on it feed different sequences — since
per entry only `filename`, the derived `is_executable` boolean and the
content are fed, never the full mode. -/
theorem depends_hashes_owner_exec_only (p : FsPath) (e₁ e₂ : Entry)
    (h₁ : e₁.meta.ftype = FileType.regular)
    (h₂ : e₂.meta.ftype = FileType.regular)
    (hc : e₁.content = e₂.content) :
    (e₁.meta.mode &&& EXE_CHECK_MASK = e₂.meta.mode &&& EXE_CHECK_MASK →
      dependsEntryTrace p e₁ = dependsEntryTrace p e₂) ∧
    (e₁.meta.mode &&& EXE_CHECK_MASK ≠ e₂.meta.mode &&& EXE_CHECK_MASK →
      dependsEntryTrace p e₁ ≠ dependsEntryTrace p e₂) := by
  constructor
  · intro hm
    simp [dependsEntryTrace, hash_file_content, h₁, h₂, hc, hm]
  · intro hm heq
    have hb : decide (e₁.meta.mode &&& EXE_CHECK_MASK > 0)
        = decide (e₂.meta.mode &&& EXE_CHECK_MASK > 0) := by
      simp [dependsEntryTrace, hash_file_content, h₁, h₂, hc] at heq
      simpa using heq
    rcases and_exe_mask_cases e₁.meta.mode with hx | hx <;>
      rcases and_exe_mask_cases e₂.meta.mode with hy | hy
    · exact hm (hx.trans hy.symm)
    · rw [hx, hy] at hb
      exact absurd hb (by decide)
    · rw [hx, hy] at hb
      exact absurd hb (by decide)
    · exact hm (hx.trans hy.symm)

/-- C4 witness: owner-execute bits differing forces different traces. -/
theorem depends_hashes_owner_exec_only_witness :
    dependsEntryTrace ["work", "g"] ⟨⟨FileType.regular, 0o600, 0, 0⟩, [], ""⟩
      ≠ dependsEntryTrace ["work", "g"]
          ⟨⟨FileType.regular, 0o700, 0, 0⟩, [], ""⟩ :=
  (depends_hashes_owner_exec_only ["work", "g"]
    ⟨⟨FileType.regular, 0o600, 0, 0⟩, [], ""⟩
    ⟨⟨FileType.regular, 0o700, 0, 0⟩, [], ""⟩ rfl rfl rfl).2 (by decide)

/-! ## The internal-source `Copy` trace (C8) -/

/-- The entry behind a successful stat (arbitrary when the stat failed). -/
def statEntry (fs : FSys) (p : FsPath) : Entry :=
  match fs.stat p with
  | StatResult.ok e => e
  | _ => ⟨⟨FileType.other, 0, 0, 0⟩, [], ""⟩

/-- The spec's description of the per-entry `Copy` fields (spec §4.3):
feed `filename`; feed `mode` only when the computed mode exists (absent
for symlinks, no-op encoded when absent); feed `uid` and `gid` as the
override when given, otherwise the entry's original ids; then the
content — file bytes for a regular file, the target for a symlink,
nothing otherwise. -/
def specCopyEntryFields (c : Copy) (p : FsPath) (e : Entry) : Trace :=
  [Item.field "filename" (FieldVal.path p)] ++
  (match c.calc_mode e.meta with
   | none => []
   | some m => [Item.field "mode" (FieldVal.nat m)]) ++
  [Item.field "uid" (FieldVal.nat (match c.owner_uid with
     | some u => u
     | none => e.meta.uid)),
   Item.field "gid" (FieldVal.nat (match c.owner_gid with
     | some g => g
     | none => e.meta.gid))] ++
  (match e.meta.ftype with
   | FileType.regular => [Item.fileBytes e.content]
   | FileType.symlink => [Item.field "symlink" (FieldVal.str e.target)]
   | _ => [])

theorem except_ok_bind {ε β γ : Type} (x : β) (f : β → Except ε γ) :
    (Except.ok x >>= f) = f x := rfl

/-- On a directory root whose enumerated entries all stat successfully,
`hash_path` produces the root entry's fields followed by each enumerated
entry's fields, in sorted enumeration order. -/
theorem hash_path_dir_ok (fs : FSys) (path : FsPath) (walk : List FsPath)
    (hashFile : FsPath → Entry → Trace) (e : Entry)
    (hroot : fs.stat path = StatResult.ok e)
    (hdir : e.meta.ftype = FileType.directory)
    (hstats : ∀ rel ∈ get_sorted_rel_paths walk,
      ∃ e2, fs.stat (path ++ rel) = StatResult.ok e2) :
    hash_path fs path walk hashFile = Except.ok
      (hashFile path e ++
       ((get_sorted_rel_paths walk).map
         (fun rel => hashFile (path ++ rel)
            (statEntry fs (path ++ rel)))).flatten) := by
  have main : ∀ (l : List FsPath) (acc : Trace),
      (∀ rel ∈ l, ∃ e2, fs.stat (path ++ rel) = StatResult.ok e2) →
      (l.foldlM (fun acc rel =>
          match fs.stat (path ++ rel) with
          | StatResult.ok e2 => Except.ok (acc ++ hashFile (path ++ rel) e2)
          | _ => Except.error (VersionError.io (path ++ rel))) acc
        : Except VersionError Trace)
        = Except.ok (acc ++
            (l.map (fun rel =>
              hashFile (path ++ rel) (statEntry fs (path ++ rel)))).flatten) := by
    intro l
    induction l with
    | nil =>
      intro acc _
      simp only [List.foldlM_nil, List.map_nil, List.flatten_nil,
        List.append_nil]
      rfl
    | cons r rs ih =>
      intro acc hst
      obtain ⟨e2, he2⟩ := hst r (List.mem_cons_self r rs)
      rw [List.foldlM_cons]
      simp only [he2, except_ok_bind]
      rw [ih _ (fun rel hrel => hst rel (List.mem_cons_of_mem r hrel))]
      simp [statEntry, he2, List.append_assoc]
  simp only [hash_path, hroot]
  rw [if_pos hdir]
  exact main _ _ hstats

/-- C8: for a workspace-internal `Copy` source the hash feeds, per
enumerated entry and in this order, `filename`, the optional computed
`mode` (absent for symlinks, no-op when absent), `uid` and `gid`
(override or original), then the content; after the whole tree the
destination `path` is fed last.  The per-entry closure is proved equal
to the spec-worded field description; the root directory's own entry is
fed first, before the enumerated entries. -/
theorem copy_hash_internal_field_order (c : Copy) (fs : FSys)
    (walk : List FsPath) (e : Entry)
    (hwork : ["work"].isPrefixOf c.source = true)
    (hfilter : ∃ f, create_path_filter c.rules c.no_default_rules
        c.ignore_regex c.include_regex = Except.ok f)
    (hroot : fs.stat c.source = StatResult.ok e)
    (hdir : e.meta.ftype = FileType.directory)
    (hstats : ∀ rel ∈ get_sorted_rel_paths walk,
      ∃ e2, fs.stat (c.source ++ rel) = StatResult.ok e2) :
    (∀ (q : FsPath) (e' : Entry),
      copyEntryTrace c q e' = specCopyEntryFields c q e') ∧
    Copy.hash c fs walk = Except.ok
      (copyEntryTrace c c.source e ++
       ((get_sorted_rel_paths walk).map
         (fun rel => copyEntryTrace c (c.source ++ rel)
            (statEntry fs (c.source ++ rel)))).flatten ++
       [Item.field "path" (FieldVal.path c.path)]) := by
  constructor
  · intro q e'
    cases hm : c.calc_mode e'.meta <;>
      cases hu : c.owner_uid <;> cases hg : c.owner_gid <;>
        cases hf : e'.meta.ftype <;>
          simp [copyEntryTrace, specCopyEntryFields, optField,
            hash_file_content, Option.getD, hm, hu, hg, hf]
  · obtain ⟨f, hf⟩ := hfilter
    unfold Copy.hash
    rw [if_pos hwork]
    simp only [hf]
    rw [hash_path_dir_ok fs c.source walk (copyEntryTrace c) e hroot hdir
      hstats]

/-- A concrete workspace tree: a directory with one regular file. -/
def wsDirEntry : Entry := ⟨⟨FileType.directory, 0o755, 0, 0⟩, [], ""⟩
def wsFileEntry : Entry := ⟨⟨FileType.regular, 0o644, 5, 6⟩, [7, 8], ""⟩

def wsFs : FSys := ⟨fun p =>
  if p = ["work", "data"] then StatResult.ok wsDirEntry
  else if p = ["work", "data", "a"] then StatResult.ok wsFileEntry
  else StatResult.notFound⟩

def wsCopyStep : Copy :=
  ⟨["work", "data"], ["dst"], none, some 3, 0o022, false, none, none,
   [], none⟩

/-- C8 witness: the concrete internal-source trace. -/
theorem copy_hash_internal_field_order_witness :
    Copy.hash wsCopyStep wsFs [["a"]] = Except.ok
      (copyEntryTrace wsCopyStep ["work", "data"] wsDirEntry ++
       ((get_sorted_rel_paths [["a"]]).map
         (fun rel => copyEntryTrace wsCopyStep (["work", "data"] ++ rel)
            (statEntry wsFs (["work", "data"] ++ rel)))).flatten ++
       [Item.field "path" (FieldVal.path ["dst"])]) := by
  have hsp : get_sorted_rel_paths [["a"]] = [["a"]] := by decide
  refine (copy_hash_internal_field_order wsCopyStep wsFs [["a"]] wsDirEntry
    (by decide) ⟨_, rfl⟩ (by decide) rfl ?_).2
  intro rel hrel
  rw [hsp] at hrel
  have h : rel = ["a"] := by simpa using hrel
  subst h
  exact ⟨wsFileEntry, by decide⟩

end Vagga
